import Mathlib

/-!
Shallow embedding of the thread-processing core of `nuxt-bluesky-comments`
(file `blueskyComments.logic.ts`): the URL/URI normalizer functions
`parseBlueskyUrl` and `uriToUrl`, and the thread flattener `processReplies`.

Strings are modelled as Lean `String`s, regular-expression matching as
executable character-list scanners that implement the exact semantics of the
two concrete JavaScript regexes in the source (leftmost unanchored match,
greedy character classes; both regexes are deterministic, so no search is
needed beyond the leftmost-position scan).
-/

namespace BlueskyComments

/-- Drops the literal character sequence `lit` from the front of `cs`,
returning the remainder, or `none` when `cs` does not start with `lit`. -/
def dropLit : List Char → List Char → Option (List Char)
  | [], cs => some cs
  | _ :: _, [] => none
  | p :: ps, c :: cs => if c = p then dropLit ps cs else none

/-- Greedy match of a character class `[^bad]*`: splits `cs` into the maximal
run of characters not in `bad`, and the rest. -/
def takeNon (bad : List Char) : List Char → List Char × List Char
  | [] => ([], [])
  | c :: cs =>
    if c ∈ bad then ([], c :: cs)
    else
      let r := takeNon bad cs
      (c :: r.1, r.2)

/-- Greedy match of the optional `s` in `https?`: drops a leading `'s'` when
present, otherwise leaves the input unchanged. (Taking the `s` is forced
whenever it is present, because the alternative must continue with `:`.) -/
def dropOptS : List Char → List Char
  | [] => []
  | c :: r => if c = 's' then r else c :: r

/-- Attempt to match the regex `https?:\/\/bsky\.app\/profile\/([^/]+)\/post\/([^/?#]+)`
at the start of `cs`, returning the two captured groups. The regex is
deterministic: `s?` is forced by the following literal `:`, and each greedy
`[^…]+` group is followed by a literal its class excludes, so no backtracking
can produce a different match. -/
def bskyMatchAt (cs : List Char) : Option (List Char × List Char) :=
  match dropLit "http".toList cs with
  | none => none
  | some cs1 =>
    let cs2 := dropOptS cs1
    match dropLit "://bsky.app/profile/".toList cs2 with
    | none => none
    | some cs3 =>
      let idr := takeNon ['/'] cs3
      if idr.1 = [] then none
      else
        match dropLit "/post/".toList idr.2 with
        | none => none
        | some cs4 =>
          let rkr := takeNon ['/', '?', '#'] cs4
          if rkr.1 = [] then none else some (idr.1, rkr.1)

/-- Leftmost-match scan: try `bskyMatchAt` at each position left to right. -/
def bskyScan : List Char → Option (List Char × List Char)
  | [] => bskyMatchAt []
  | c :: rest =>
    match bskyMatchAt (c :: rest) with
    | some r => some r
    | none => bskyScan rest

/-- Result of `parseBlueskyUrl`: the two captured groups of the URL regex. -/
structure ParsedUrl where
  identifier : String
  rkey : String
deriving DecidableEq, Repr

/-- Embedding of `parseBlueskyUrl` from `blueskyComments.logic.ts`:
`url.match(/https?:\/\/bsky\.app\/profile\/([^/]+)\/post\/([^/?#]+)/)`,
returning `{ identifier, rkey }` on a match and `null` (here `none`)
otherwise. -/
def parseBlueskyUrl (url : String) : Option ParsedUrl :=
  match bskyScan url.toList with
  | none => none
  | some (ident, rk) => some ⟨⟨ident⟩, ⟨rk⟩⟩

/-- Attempt to match the regex `at:\/\/([^/]+)\/app\.bsky\.feed\.post\/([^/?#]+)`
at the start of `cs`, returning the captured DID and rkey. Deterministic for
the same reason as `bskyMatchAt`. -/
def atMatchAt (cs : List Char) : Option (List Char × List Char) :=
  match dropLit "at://".toList cs with
  | none => none
  | some cs1 =>
    let didr := takeNon ['/'] cs1
    if didr.1 = [] then none
    else
      match dropLit "/app.bsky.feed.post/".toList didr.2 with
      | none => none
      | some cs2 =>
        let rkr := takeNon ['/', '?', '#'] cs2
        if rkr.1 = [] then none else some (didr.1, rkr.1)

/-- Leftmost-match scan for the AT-URI regex. -/
def atScan : List Char → Option (List Char × List Char)
  | [] => atMatchAt []
  | c :: rest =>
    match atMatchAt (c :: rest) with
    | some r => some r
    | none => atScan rest

/-- Embedding of `uriToUrl` from `blueskyComments.logic.ts`. The `handle`
parameter is optional (`handle?: string`); the source computes
`identifier = handle || did`, so an absent handle **and** an empty-string
handle both fall back to the DID (JavaScript `||` treats `""` as falsy). -/
def uriToUrl (uri : String) (handle : Option String := none) : String :=
  match atScan uri.toList with
  | none => ""
  | some (did, rk) =>
    let identifier : String :=
      match handle with
      | some h => if h = "" then ⟨did⟩ else h
      | none => ⟨did⟩
    "https://bsky.app/profile/" ++ identifier ++ "/post/" ++ (⟨rk⟩ : String)

/-- Author data carried on a post (`post.author` fields read by the source). -/
structure Author where
  did : String
  handle : String
  displayName : Option String := none
  avatar : Option String := none
deriving DecidableEq, Repr

/-- The fields of `AppBskyFeedPost.Record` the source reads (via the unchecked
cast `post.record as PostRecord`, so the whole record may be absent). -/
structure PostRecord where
  text : String
  createdAt : String
deriving DecidableEq, Repr

/-- The fields of `AppBskyFeedDefs.PostView` the source reads. The engagement
counts are optional in the API type (`likeCount?: number` etc.), which the
source handles with `|| 0`. -/
structure PostView where
  cid : String
  uri : String
  author : Author
  record : Option PostRecord := none
  indexedAt : String := ""
  likeCount : Option Nat := none
  replyCount : Option Nat := none
  repostCount : Option Nat := none
deriving DecidableEq, Repr

/-- A node of the raw reply tree: either a valid `ThreadViewPost` (with its
post data and optional nested `replies` array) or any other union variant
(`NotFoundPost`, `BlockedPost`, `$Unknown`), for which
`AppBskyFeedDefs.isThreadViewPost` is false. -/
inductive ReplyNode where
  | threadView (post : PostView) (replies : Option (List ReplyNode))
  | invalid
deriving Repr

/-- `AppBskyFeedDefs.isThreadViewPost`, specialised to the reply union. -/
def isThreadViewPost : ReplyNode → Bool
  | .threadView _ _ => true
  | .invalid => false

/-- The source's `FlattenedComment` output record. -/
structure FlattenedComment where
  id : String
  uri : String
  author : Author
  text : String
  createdAt : String
  likeCount : Nat
  replyCount : Nat
  repostCount : Nat
  depth : Nat
  replies : List FlattenedComment
  parentAuthorDid : Option String
deriving Repr

/-- `ProcessRepliesOptions`: `flattenSameAuthorThreads?: boolean`. -/
structure ProcessRepliesOptions where
  flattenSameAuthorThreads : Option Bool := none
deriving DecidableEq, Repr

/-- JavaScript `a || b` on an optional string: an absent value and the empty
string are both falsy. -/
def jsOrStr (a : Option String) (b : String) : String :=
  match a with
  | some s => if s = "" then b else s
  | none => b

/-- A head comment together with the same-author continuations promoted to
travel with it (the element type of the `groups` array in the source). -/
structure Group where
  head : FlattenedComment
  continuations : List FlattenedComment
deriving Repr

/-- The engagement sort key: `head.likeCount + head.replyCount`. -/
def groupScore (g : Group) : Nat := g.head.likeCount + g.head.replyCount

/-- The order the source's comparator `(a, b) => scoreB - scoreA` sorts by:
descending engagement score of the group head. -/
def groupGE (a b : Group) : Prop := groupScore b ≤ groupScore a

instance : DecidableRel groupGE := fun a b => Nat.decLe (groupScore b) (groupScore a)

instance : IsTotal Group groupGE := ⟨fun a b => Nat.le_total (groupScore b) (groupScore a)⟩

instance : IsTrans Group groupGE := ⟨fun _ _ _ h1 h2 => Nat.le_trans h2 h1⟩

/-- The source's `groups.sort((a, b) => scoreB - scoreA)`:
`Array.prototype.sort` is stable, so this is the stable descending sort by
`groupScore`, i.e. insertion sort with the `groupGE` order. -/
def sortGroups (gs : List Group) : List Group := List.insertionSort groupGE gs

/-- The source's final `groups.flatMap((g) => [g.head, ...g.continuations])`. -/
def emitGroups (gs : List Group) : List FlattenedComment :=
  gs.flatMap fun g => g.head :: g.continuations

/-- The per-child loop body of `processReplies`, building the `groups` array:
skips non-`ThreadViewPost` variants, builds the `FlattenedComment` for each
valid child, recursively processes its nested replies, and (when
`flattenSameAuthorThreads` is on) partitions the recursively flattened
grandchildren into promoted same-author continuations and retained nested
replies. The recursive call `processReplies(reply.replies, author.did,
depth + 1, options)` is inlined in its guarded non-empty form
(`emitGroups (sortGroups (buildGroups …))`), which is what `processReplies`
reduces to when its argument is a non-empty array. -/
def buildGroups : List ReplyNode → Option String → Nat → ProcessRepliesOptions → List Group
  | [], _, _, _ => []
  | .invalid :: rest, parentAuthorDid, depth, options =>
    buildGroups rest parentAuthorDid depth options
  | .threadView post replies :: rest, parentAuthorDid, depth, options =>
    let flattenSameAuthorThreads := options.flattenSameAuthorThreads.getD true
    let author := post.author
    let isSameAuthor : Bool := parentAuthorDid = some author.did
    let comment : FlattenedComment :=
      { id := post.cid
        uri := post.uri
        author := author
        text := jsOrStr (post.record.map PostRecord.text) ""
        createdAt := jsOrStr (post.record.map PostRecord.createdAt) post.indexedAt
        likeCount := post.likeCount.getD 0
        replyCount := post.replyCount.getD 0
        repostCount := post.repostCount.getD 0
        depth := if isSameAuthor then depth else depth
        replies := []
        parentAuthorDid := parentAuthorDid }
    let group : Group :=
      match replies with
      | some rs =>
        if rs.length > 0 then
          let nestedReplies :=
            emitGroups (sortGroups (buildGroups rs (some author.did) (depth + 1) options))
          if flattenSameAuthorThreads then
            let part := nestedReplies.partition fun n => n.author.did = author.did
            let continuations := part.1.map fun n =>
              { n with depth := depth, parentAuthorDid := some author.did }
            ⟨{ comment with replies := part.2 }, continuations⟩
          else
            ⟨{ comment with replies := nestedReplies }, []⟩
        else ⟨comment, []⟩
      | none => ⟨comment, []⟩
    group :: buildGroups rest parentAuthorDid depth options

/-- Embedding of `processReplies` from `blueskyComments.logic.ts`. -/
def processReplies (replies : Option (List ReplyNode)) (parentAuthorDid : Option String)
    (depth : Nat := 0) (options : ProcessRepliesOptions := {}) : List FlattenedComment :=
  match replies with
  | none => []
  | some rs =>
    if rs.length = 0 then []
    else emitGroups (sortGroups (buildGroups rs parentAuthorDid depth options))

/-- The group `buildGroups` constructs for one valid child node (the loop
body of the source for a `ThreadViewPost` element), as a standalone
function. -/
def mkGroup (post : PostView) (replies : Option (List ReplyNode))
    (parentAuthorDid : Option String) (depth : Nat) (options : ProcessRepliesOptions) : Group :=
  let flattenSameAuthorThreads := options.flattenSameAuthorThreads.getD true
  let author := post.author
  let isSameAuthor : Bool := parentAuthorDid = some author.did
  let comment : FlattenedComment :=
    { id := post.cid
      uri := post.uri
      author := author
      text := jsOrStr (post.record.map PostRecord.text) ""
      createdAt := jsOrStr (post.record.map PostRecord.createdAt) post.indexedAt
      likeCount := post.likeCount.getD 0
      replyCount := post.replyCount.getD 0
      repostCount := post.repostCount.getD 0
      depth := if isSameAuthor then depth else depth
      replies := []
      parentAuthorDid := parentAuthorDid }
  match replies with
  | some rs =>
    if rs.length > 0 then
      let nestedReplies :=
        emitGroups (sortGroups (buildGroups rs (some author.did) (depth + 1) options))
      if flattenSameAuthorThreads then
        let part := nestedReplies.partition fun n => n.author.did = author.did
        let continuations := part.1.map fun n =>
          { n with depth := depth, parentAuthorDid := some author.did }
        ⟨{ comment with replies := part.2 }, continuations⟩
      else
        ⟨{ comment with replies := nestedReplies }, []⟩
    else ⟨comment, []⟩
  | none => ⟨comment, []⟩

/-- All comment ids appearing anywhere in a list of flattened comments,
nested `replies` included. -/
def idsList : List FlattenedComment → List String
  | [] => []
  | ⟨i, _, _, _, _, _, _, _, _, rs, _⟩ :: rest => i :: (idsList rs ++ idsList rest)

/-- The ids contributed by one comment: its own id and every id nested in
its `replies`. -/
def topIds (c : FlattenedComment) : List String := c.id :: idsList c.replies

/-- The ids contributed by one group: its head's ids and its promoted
continuations' ids. -/
def groupIds (g : Group) : List String := topIds g.head ++ idsList g.continuations

/-- All post cids appearing anywhere in a raw reply forest (invalid variants
contribute nothing). -/
def rawIdsList : List ReplyNode → List String
  | [] => []
  | .invalid :: rest => rawIdsList rest
  | .threadView post none :: rest => post.cid :: rawIdsList rest
  | .threadView post (some rs) :: rest => post.cid :: (rawIdsList rs ++ rawIdsList rest)

/-- The language of the web-URL regex, written declaratively: the string
contains (unanchored, per JavaScript `String.match`) an occurrence of
`https?://bsky.app/profile/<identifier>/post/<rkey>` with a non-empty
identifier containing no `/` and a non-empty rkey containing none of
`/ ? #`. -/
def containsBskyPattern (s : String) : Prop :=
  ∃ pre sch ident rk suf,
    (sch = "http".toList ∨ sch = "https".toList)
    ∧ ident ≠ [] ∧ (∀ c ∈ ident, ¬ c = '/')
    ∧ rk ≠ [] ∧ (∀ c ∈ rk, ¬ (c = '/' ∨ c = '?' ∨ c = '#'))
    ∧ s.toList = pre ++ sch ++ "://bsky.app/profile/".toList ++ ident
        ++ "/post/".toList ++ rk ++ suf

/-- The language of the AT-URI regex, written declaratively: the string
contains an occurrence of `at://<did>/app.bsky.feed.post/<rkey>` with a
non-empty DID containing no `/` and a non-empty rkey containing none of
`/ ? #`. -/
def containsAtPattern (s : String) : Prop :=
  ∃ pre did rk suf,
    did ≠ [] ∧ (∀ c ∈ did, ¬ c = '/')
    ∧ rk ≠ [] ∧ (∀ c ∈ rk, ¬ (c = '/' ∨ c = '?' ∨ c = '#'))
    ∧ s.toList = pre ++ "at://".toList ++ did ++ "/app.bsky.feed.post/".toList ++ rk ++ suf

/-! Concrete thread used by the spec's flattening examples: a chain
`A1 → A2 → A3` all by author A, with a second reply `B1` under `A2` from
author B. `B1` is listed before `A3` among `A2`'s raw children and has the
lower engagement score, so the engagement sort is exercised. -/

/-- Author A of the example chain. -/
def authorA : Author := { did := "did:plc:aaa", handle := "alice.test" }

/-- Author B of the example branch reply. -/
def authorB : Author := { did := "did:plc:bbb", handle := "bob.test" }

/-- Example post view with a given cid, author and like count. -/
def mkPost (cid : String) (au : Author) (likes : Nat) : PostView :=
  { cid := cid, uri := "at://" ++ au.did ++ "/app.bsky.feed.post/" ++ cid
    author := au, likeCount := some likes }

/-- `B1`: a reply by author B under `A2`, engagement score 1. -/
def nodeB1 : ReplyNode := .threadView (mkPost "b1" authorB 1) none

/-- `A3`: the same-author continuation nested under `A2`, engagement score 3. -/
def nodeA3 : ReplyNode := .threadView (mkPost "a3" authorA 3) none

/-- `A2`: the same-author reply under `A1`, with children `[B1, A3]`. -/
def nodeA2 : ReplyNode := .threadView (mkPost "a2" authorA 0) (some [nodeB1, nodeA3])

/-- `A1`: the top-level reply, child `[A2]`. -/
def nodeA1 : ReplyNode := .threadView (mkPost "a1" authorA 0) (some [nodeA2])

/-- The comment `processReplies` returns for the single-node witness input of
claim C8 (one valid reply processed at depth 5). -/
def witnessComment : FlattenedComment :=
  { id := "w", uri := "at://did:plc:aaa/app.bsky.feed.post/w", author := authorA
    text := "", createdAt := "", likeCount := 0, replyCount := 0, repostCount := 0
    depth := 5, replies := [], parentAuthorDid := some "did:plc:parent" }

/-- The `FlattenedComment` the source builds for one valid child, before its
nested replies are attached (the `comment` object literal in the source;
its `depth` keeps the source's redundant conditional `isSameAuthor ? depth
: depth`). -/
def commentFor (post : PostView) (parentAuthorDid : Option String) (depth : Nat) :
    FlattenedComment :=
  let author := post.author
  let isSameAuthor : Bool := parentAuthorDid = some author.did
  { id := post.cid
    uri := post.uri
    author := author
    text := jsOrStr (post.record.map PostRecord.text) ""
    createdAt := jsOrStr (post.record.map PostRecord.createdAt) post.indexedAt
    likeCount := post.likeCount.getD 0
    replyCount := post.replyCount.getD 0
    repostCount := post.repostCount.getD 0
    depth := if isSameAuthor then depth else depth
    replies := []
    parentAuthorDid := parentAuthorDid }

/-- Unfolding equation of `buildGroups` on the empty list. -/
theorem buildGroups_nil (p : Option String) (d : Nat) (o : ProcessRepliesOptions) :
    buildGroups [] p d o = [] := by
  rw [buildGroups.eq_def]

/-- Unfolding equation of `buildGroups` on an invalid head: it is skipped. -/
theorem buildGroups_invalid (rest : List ReplyNode) (p : Option String) (d : Nat)
    (o : ProcessRepliesOptions) :
    buildGroups (.invalid :: rest) p d o = buildGroups rest p d o := by
  rw [buildGroups.eq_def]

/-- Unfolding equation of `buildGroups` on a valid head: it contributes the
group `mkGroup` builds for it. -/
theorem buildGroups_cons (post : PostView) (replies : Option (List ReplyNode))
    (rest : List ReplyNode) (p : Option String) (d : Nat) (o : ProcessRepliesOptions) :
    buildGroups (.threadView post replies :: rest) p d o =
      mkGroup post replies p d o :: buildGroups rest p d o := by
  rw [buildGroups.eq_def]; rfl

/-- C1: with `flattenSameAuthorThreads` true, same-author promotion is
transitive — `processReplies([A1], parentId, 0, {flattenSameAuthorThreads:
true})` returns the flat list `[A1, A2, A3]`, all at depth 0, with
`A1.replies = []`, `A2.replies = [B1]` and `A3.replies = []`. -/
theorem claim_C1 :
    ((processReplies (some [nodeA1]) (some "did:plc:parent") 0 ⟨some true⟩).map
        FlattenedComment.id = ["a1", "a2", "a3"])
    ∧ ((processReplies (some [nodeA1]) (some "did:plc:parent") 0 ⟨some true⟩).map
        FlattenedComment.depth = [0, 0, 0])
    ∧ ((processReplies (some [nodeA1]) (some "did:plc:parent") 0 ⟨some true⟩).map
        (fun c => c.replies.map FlattenedComment.id) = [[], ["b1"], []]) := by
  refine ⟨?_, ?_, ?_⟩ <;>
    simp [processReplies, buildGroups, nodeA1, nodeA2, nodeA3, nodeB1, mkPost,
      authorA, authorB, sortGroups, emitGroups, List.insertionSort,
      List.orderedInsert, groupGE, groupScore, jsOrStr]

/-- C3: with `flattenSameAuthorThreads` false, no promotion occurs: the same
input yields the single top-level comment `A1`, whose `replies` is `[A2]`,
whose own `replies` is `[A3, B1]` sorted by descending engagement (`A3`
scores 3, `B1` scores 1, while the raw order was `[B1, A3]`). -/
theorem claim_C3 :
    (processReplies (some [nodeA1]) (some "did:plc:parent") 0 ⟨some false⟩).map
      (fun c => (c.id, c.depth, c.replies.map
        (fun r => (r.id, r.depth, r.replies.map
          (fun t => (t.id, t.depth, t.replies.map FlattenedComment.id)))))) =
      [("a1", 0, [("a2", 1, [("a3", 2, []), ("b1", 2, [])])])] := by
  simp [processReplies, buildGroups, nodeA1, nodeA2, nodeA3, nodeB1, mkPost,
    authorA, authorB, sortGroups, emitGroups, List.insertionSort,
    List.orderedInsert, groupGE, groupScore, jsOrStr]

/-- C10: the URL regex match is unanchored — a string that merely contains
the web-URL pattern as an internal substring (non-empty text before the
scheme and extra path/query segments after the rkey) still yields the
captured groups of the embedded occurrence. -/
theorem claim_C10 :
    parseBlueskyUrl "see https://bsky.app/profile/alice.bsky.social/post/abc123/reply?x=1 there" =
      some ⟨"alice.bsky.social", "abc123"⟩ := by
  decide

/-- C5 counterexample: the claim says the identifier segment is the supplied
handle whenever a handle argument is supplied, but the source computes
`handle || did`, so the supplied empty-string handle is ignored in favour of
the DID (`""` is falsy in JavaScript). -/
theorem claim_C5_counterexample :
    uriToUrl "at://did:plc:abc/app.bsky.feed.post/xyz" (some "") =
        "https://bsky.app/profile/did:plc:abc/post/xyz"
    ∧ uriToUrl "at://did:plc:abc/app.bsky.feed.post/xyz" (some "") ≠
        "https://bsky.app/profile//post/xyz" := by
  constructor
  · decide
  · decide

/-- C6 counterexample: the round-trip claim fails for a handle containing a
slash — `uriToUrl` splices the handle into the URL verbatim, and the
resulting URL no longer matches the parsing regex at all, so
`parseBlueskyUrl` returns `none` instead of a result carrying rkey `xyz`. -/
theorem claim_C6_counterexample :
    parseBlueskyUrl (uriToUrl "at://did:plc:abc/app.bsky.feed.post/xyz" (some "nested/part")) =
      none := by
  decide

/-- Skipping the non-`ThreadViewPost` variants up front changes nothing:
`buildGroups` already skips them one by one. -/
theorem buildGroups_filter (rs : List ReplyNode) (p : Option String) (d : Nat)
    (o : ProcessRepliesOptions) :
    buildGroups (rs.filter isThreadViewPost) p d o = buildGroups rs p d o := by
  induction rs with
  | nil => rfl
  | cons r rest ih =>
    cases r with
    | invalid =>
      simpa [isThreadViewPost, buildGroups_invalid] using ih
    | threadView post replies =>
      simpa [isThreadViewPost, buildGroups_cons] using ih

/-- C7: invalid (blocked / not-found / other-variant) nodes are silently
dropped: an absent or empty reply list returns `[]`, and any input list
processes identically to its restriction to valid `ThreadViewPost` nodes,
so invalid elements contribute no output entry and do not disturb the
ordering of the remaining valid elements. -/
theorem claim_C7 :
    (∀ p d o, processReplies none p d o = [])
    ∧ (∀ p d o, processReplies (some []) p d o = [])
    ∧ (∀ rs p d o, processReplies (some rs) p d o =
        processReplies (some (rs.filter isThreadViewPost)) p d o) := by
  refine ⟨fun p d o => rfl, fun p d o => rfl, fun rs p d o => ?_⟩
  by_cases hrs : rs = []
  · subst hrs; rfl
  · have hlen : ¬ rs.length = 0 := by simpa [List.length_eq_zero] using hrs
    by_cases hf : rs.filter isThreadViewPost = []
    · have hb : buildGroups rs p d o = [] := by
        rw [← buildGroups_filter, hf, buildGroups_nil]
      simp [processReplies, hlen, hf, hb, sortGroups, emitGroups, List.insertionSort]
    · have hflen : ¬ (rs.filter isThreadViewPost).length = 0 := by
        simpa [List.length_eq_zero] using hf
      simp [processReplies, hlen, hflen, buildGroups_filter]

/-- Every group built at depth `d` has its head at depth `d` and all its
promoted continuations rewritten to depth `d`. -/
theorem buildGroups_depth (rs : List ReplyNode) (p : Option String) (d : Nat)
    (o : ProcessRepliesOptions) (g : Group) (hg : g ∈ buildGroups rs p d o) :
    g.head.depth = d ∧ ∀ c ∈ g.continuations, c.depth = d := by
  induction rs with
  | nil => simp [buildGroups_nil] at hg
  | cons r rest ih =>
    cases r with
    | invalid =>
      rw [buildGroups_invalid] at hg
      exact ih hg
    | threadView post replies =>
      rw [buildGroups_cons] at hg
      rcases List.mem_cons.mp hg with hhead | htail
      · subst hhead
        rw [mkGroup.eq_def]
        cases replies with
        | none => simp [ite_self]
        | some rs' =>
          by_cases hlen : rs'.length > 0
          · by_cases hflat : o.flattenSameAuthorThreads.getD true
            · simp only [hlen, hflat, if_true]
              constructor
              · simp [ite_self]
              · intro c hc
                simp only [List.mem_map] at hc
                obtain ⟨n, _, hn⟩ := hc
                rw [← hn]
            · simp [hlen, hflat, ite_self]
          · simp [hlen, ite_self]
      · exact ih htail

/-- C8: depth invariant — every element of the list returned by
`processReplies(replies, parentAuthorId, d, options)` has `depth = d`:
heads are constructed at the current depth and promoted continuations have
their depth rewritten to the promoting level's depth. -/
theorem claim_C8 (replies : Option (List ReplyNode)) (p : Option String) (d : Nat)
    (o : ProcessRepliesOptions) (c : FlattenedComment)
    (hc : c ∈ processReplies replies p d o) : c.depth = d := by
  cases replies with
  | none => simp [processReplies] at hc
  | some rs =>
    by_cases hlen : rs.length = 0
    · simp [processReplies, hlen] at hc
    · rw [processReplies] at hc
      simp only [hlen, if_false, emitGroups, List.mem_flatMap] at hc
      obtain ⟨g, hg, hcg⟩ := hc
      have hg' : g ∈ buildGroups rs p d o := by
        rw [sortGroups] at hg
        exact (List.mem_insertionSort groupGE).mp hg
      obtain ⟨hhead, hconts⟩ := buildGroups_depth rs p d o g hg'
      rcases List.mem_cons.mp hcg with h | h
      · rw [h, hhead]
      · exact hconts c h

/-- Witness for C8 at a concrete input: the single comment returned for a
one-node reply list processed at depth 5 has depth 5. -/
theorem claim_C8_witness : witnessComment.depth = 5 :=
  claim_C8 (some [ReplyNode.threadView (mkPost "w" authorA 0) none])
    (some "did:plc:parent") 5 {} witnessComment
    (by simp [processReplies, buildGroups, mkPost, authorA, emitGroups, sortGroups,
      List.insertionSort, jsOrStr, witnessComment])

/-- Inserting a group into a list keeps the relative order of groups of any
fixed score: the insertion point lies before every group of score ≤ the
inserted one, so the restriction to one score value gains exactly the
inserted element at its front (when its score matches) and is otherwise
unchanged. -/
theorem filter_score_orderedInsert (g : Group) (l : List Group) (s : Nat) :
    (List.orderedInsert groupGE g l).filter (fun x => groupScore x == s) =
      ((g :: l).filter fun x => groupScore x == s) := by
  induction l with
  | nil => rfl
  | cons h t ih =>
    by_cases hle : groupGE g h
    · rw [List.orderedInsert_of_le _ _ hle]
    · have hrec : List.orderedInsert groupGE g (h :: t) =
          h :: List.orderedInsert groupGE g t := by
        simp [List.orderedInsert, hle]
      rw [hrec]
      have hgt : groupScore g < groupScore h := by
        simp only [groupGE, not_le] at hle
        exact hle
      by_cases hh : groupScore h = s
      · by_cases hgs : groupScore g = s
        · omega
        · simp [List.filter_cons, hh, hgs, ih]
      · simp [List.filter_cons, hh, ih]

/-- The stable sort keeps the original relative order of groups with any
fixed engagement score. -/
theorem filter_score_sortGroups (gs : List Group) (s : Nat) :
    (sortGroups gs).filter (fun x => groupScore x == s) =
      (gs.filter fun x => groupScore x == s) := by
  induction gs with
  | nil => rfl
  | cons g t ih =>
    rw [sortGroups, List.insertionSort, filter_score_orderedInsert]
    rw [sortGroups] at ih
    by_cases hgs : groupScore g = s
    · simp [List.filter_cons, hgs, ih]
    · simp [List.filter_cons, hgs, ih]

/-- C2: the output of `processReplies` is the concatenation of sorted groups:
each valid head comment travels with its promoted continuations, emitted
immediately after it in their recursive order; the groups are sorted stably
by descending `likeCount + replyCount` of the head only (the key inspects
nothing but the head's like and reply counts, so continuation engagement and
`repostCount` never affect it), and groups whose heads tie keep their
original relative order. -/
theorem claim_C2 :
    (∀ rs p d o, processReplies (some rs) p d o =
        if rs.length = 0 then [] else emitGroups (sortGroups (buildGroups rs p d o)))
    ∧ (∀ gs, emitGroups gs = gs.flatMap fun g => g.head :: g.continuations)
    ∧ (∀ g, groupScore g = g.head.likeCount + g.head.replyCount)
    ∧ (∀ gs, List.Sorted groupGE (sortGroups gs))
    ∧ (∀ gs, List.Perm (sortGroups gs) gs)
    ∧ (∀ gs s, (sortGroups gs).filter (fun g => groupScore g == s) =
        (gs.filter fun g => groupScore g == s)) :=
  ⟨fun _ _ _ _ => rfl, fun _ => rfl, fun _ => rfl,
    fun gs => List.sorted_insertionSort groupGE gs,
    fun gs => List.perm_insertionSort groupGE gs,
    filter_score_sortGroups⟩

/-- Evaluation of `mkGroup` for a child with no replies array. -/
theorem mkGroup_none (post : PostView) (p : Option String) (d : Nat)
    (o : ProcessRepliesOptions) : mkGroup post none p d o = ⟨commentFor post p d, []⟩ := rfl

/-- Evaluation of `mkGroup` for a child with an empty replies array. -/
theorem mkGroup_some_nil (post : PostView) (p : Option String) (d : Nat)
    (o : ProcessRepliesOptions) : mkGroup post (some []) p d o = ⟨commentFor post p d, []⟩ := rfl

/-- Evaluation of `mkGroup` for a child with a non-empty replies array when
same-author flattening is on: the recursively flattened grandchildren are
partitioned into promoted continuations (same author, depth and
`parentAuthorDid` rewritten) and retained nested replies. -/
theorem mkGroup_some_flat (post : PostView) (rs : List ReplyNode) (p : Option String)
    (d : Nat) (o : ProcessRepliesOptions) (hlen : 0 < rs.length)
    (hflat : o.flattenSameAuthorThreads.getD true = true) :
    mkGroup post (some rs) p d o =
      (let nested := emitGroups (sortGroups (buildGroups rs (some post.author.did) (d + 1) o))
       let part := nested.partition fun n => n.author.did = post.author.did
       ⟨{ commentFor post p d with replies := part.2 },
         part.1.map fun n => { n with depth := d, parentAuthorDid := some post.author.did }⟩) := by
  rw [mkGroup.eq_def]
  simp [hlen, hflat, commentFor]

/-- Evaluation of `mkGroup` for a child with a non-empty replies array when
same-author flattening is off: the recursively flattened grandchildren stay
nested under the child, and no continuations are promoted. -/
theorem mkGroup_some_noflat (post : PostView) (rs : List ReplyNode) (p : Option String)
    (d : Nat) (o : ProcessRepliesOptions) (hlen : 0 < rs.length)
    (hflat : o.flattenSameAuthorThreads.getD true = false) :
    mkGroup post (some rs) p d o =
      ⟨{ commentFor post p d with
          replies := emitGroups (sortGroups (buildGroups rs (some post.author.did) (d + 1) o)) },
        []⟩ := by
  rw [mkGroup.eq_def]
  simp [hlen, hflat, commentFor]

/-- Unfolding equation of `idsList` on the empty list. -/
theorem idsList_nil : idsList [] = [] := by rw [idsList.eq_def]

/-- Unfolding equation of `idsList` on a cons cell. -/
theorem idsList_cons (c : FlattenedComment) (rest : List FlattenedComment) :
    idsList (c :: rest) = c.id :: (idsList c.replies ++ idsList rest) := by
  obtain ⟨i, u, a, t, ca, lc, rc, pc, dp, rs, pa⟩ := c
  rw [idsList.eq_def]

/-- `idsList` distributes over list append. -/
theorem idsList_append (a b : List FlattenedComment) :
    idsList (a ++ b) = idsList a ++ idsList b := by
  induction a with
  | nil => simp [idsList_nil]
  | cons c rest ih =>
    rw [List.cons_append, idsList_cons, idsList_cons, ih]
    simp [List.append_assoc]

/-- `idsList` is the flat map of each element's contributed ids. -/
theorem idsList_eq_flatMap (l : List FlattenedComment) : idsList l = l.flatMap topIds := by
  induction l with
  | nil => simp [idsList_nil]
  | cons c rest ih =>
    rw [idsList_cons, List.flatMap_cons, ih, topIds, List.cons_append]

/-- Permuting a comment list permutes its contributed ids. -/
theorem idsList_perm {l₁ l₂ : List FlattenedComment} (h : l₁.Perm l₂) :
    (idsList l₁).Perm (idsList l₂) := by
  rw [idsList_eq_flatMap, idsList_eq_flatMap]
  exact List.Perm.flatMap_right topIds h

/-- The ids of the emitted comment list are the groups' contributed ids. -/
theorem idsList_emitGroups (gs : List Group) :
    idsList (emitGroups gs) = gs.flatMap groupIds := by
  induction gs with
  | nil => simp [emitGroups, idsList_nil]
  | cons g rest ih =>
    have hcons : emitGroups (g :: rest) = (g.head :: g.continuations) ++ emitGroups rest :=
      List.flatMap_cons g rest _
    rw [hcons, List.cons_append, idsList_cons, idsList_append, List.flatMap_cons, groupIds,
      topIds, ih]
    simp [List.append_assoc]

/-- Rewriting a comment's depth and parent author (what promotion does to a
continuation) changes no ids. -/
theorem idsList_map_retag (l : List FlattenedComment) (d : Nat) (pa : Option String) :
    idsList (l.map fun n => { n with depth := d, parentAuthorDid := pa }) = idsList l := by
  induction l with
  | nil => rfl
  | cons c rest ih =>
    rw [List.map_cons, idsList_cons, idsList_cons, ih]

/-- Unfolding equation of `rawIdsList` on the empty list. -/
theorem rawIdsList_nil : rawIdsList [] = [] := by rw [rawIdsList.eq_def]

/-- Unfolding equation of `rawIdsList` on an invalid head. -/
theorem rawIdsList_invalid (rest : List ReplyNode) :
    rawIdsList (.invalid :: rest) = rawIdsList rest := by rw [rawIdsList.eq_def]

/-- Unfolding equation of `rawIdsList` on a valid head with no replies array. -/
theorem rawIdsList_tv_none (post : PostView) (rest : List ReplyNode) :
    rawIdsList (.threadView post none :: rest) = post.cid :: rawIdsList rest := by
  rw [rawIdsList.eq_def]

/-- Unfolding equation of `rawIdsList` on a valid head with a replies array. -/
theorem rawIdsList_tv_some (post : PostView) (rs rest : List ReplyNode) :
    rawIdsList (.threadView post (some rs) :: rest) =
      post.cid :: (rawIdsList rs ++ rawIdsList rest) := by
  rw [rawIdsList.eq_def]

/-- The groups built from a raw forest contribute exactly the forest's ids,
as a multiset: promotion moves comments between `replies` nesting and
continuation position but neither drops nor duplicates any, whatever the
options. -/
theorem ids_build : ∀ (n : Nat) (rs : List ReplyNode), sizeOf rs ≤ n →
    ∀ p d o, ((buildGroups rs p d o).flatMap groupIds).Perm (rawIdsList rs) := by
  intro n
  induction n with
  | zero =>
    intro rs h
    exfalso
    cases rs <;> simp at h
  | succ n ihn =>
    intro rs hsz p d o
    cases rs with
    | nil =>
      rw [buildGroups_nil, rawIdsList_nil]
      exact List.Perm.refl _
    | cons r rest =>
      cases r with
      | invalid =>
        have hrest : sizeOf rest ≤ n := by simp at hsz; omega
        rw [buildGroups_invalid, rawIdsList_invalid]
        exact ihn rest hrest p d o
      | threadView post replies =>
        have hrest : sizeOf rest ≤ n := by cases replies <;> (simp at hsz; omega)
        have hr : ((buildGroups rest p d o).flatMap groupIds).Perm (rawIdsList rest) :=
          ihn rest hrest p d o
        rw [buildGroups_cons, List.flatMap_cons]
        cases replies with
        | none =>
          rw [rawIdsList_tv_none, mkGroup_none]
          have hgid : groupIds ⟨commentFor post p d, []⟩ = [post.cid] := by
            simp [groupIds, topIds, commentFor, idsList]
          rw [hgid]
          simpa using hr.cons post.cid
        | some rs' =>
          have hrs' : sizeOf rs' ≤ n := by simp at hsz; omega
          rw [rawIdsList_tv_some]
          by_cases hlen : 0 < rs'.length
          · have hnested :
                (idsList (emitGroups (sortGroups
                  (buildGroups rs' (some post.author.did) (d + 1) o)))).Perm
                  (rawIdsList rs') := by
              rw [idsList_emitGroups]
              exact (List.Perm.flatMap_right groupIds
                (List.perm_insertionSort groupGE _)).trans (ihn rs' hrs' _ _ o)
            have hg : (groupIds (mkGroup post (some rs') p d o)).Perm
                (post.cid :: rawIdsList rs') := by
              by_cases hflat : o.flattenSameAuthorThreads.getD true
              · rw [mkGroup_some_flat post rs' p d o hlen hflat]
                simp only [groupIds, topIds, List.partition_eq_filter_filter,
                  Function.comp_def]
                rw [idsList_map_retag]
                have hid : (commentFor post p d).id = post.cid := by simp [commentFor]
                simp only [hid]
                rw [List.cons_append, ← idsList_append]
                refine List.Perm.cons _ ?_
                refine (idsList_perm ?_).trans hnested
                exact List.Perm.trans List.perm_append_comm
                  (List.filter_append_perm _ _)
              · have hflat' : o.flattenSameAuthorThreads.getD true = false := by
                  simpa using hflat
                rw [mkGroup_some_noflat post rs' p d o hlen hflat']
                simp only [groupIds, topIds, idsList_nil, List.append_nil]
                have hid : (commentFor post p d).id = post.cid := by simp [commentFor]
                simp only [hid]
                exact hnested.cons post.cid
            have := hg.append hr
            rw [List.cons_append] at this
            exact this
          · have hnil : rs' = [] := by
              simpa [List.length_eq_zero] using hlen
            subst hnil
            rw [mkGroup_some_nil, rawIdsList_nil]
            have hgid : groupIds ⟨commentFor post p d, []⟩ = [post.cid] := by
              simp [groupIds, topIds, commentFor, idsList]
            rw [hgid]
            simpa using hr.cons post.cid

/-- For any options, the multiset of ids anywhere in the output of
`processReplies` is the multiset of ids of the valid nodes of the raw
forest. -/
theorem ids_processReplies (rs : List ReplyNode) (p : Option String) (d : Nat)
    (o : ProcessRepliesOptions) :
    (idsList (processReplies (some rs) p d o)).Perm (rawIdsList rs) := by
  by_cases hlen : rs.length = 0
  · have hnil : rs = [] := by simpa [List.length_eq_zero] using hlen
    subst hnil
    rw [rawIdsList_nil, show processReplies (some []) p d o = [] from rfl, idsList_nil]
  · rw [processReplies]
    simp only [hlen, if_false]
    rw [idsList_emitGroups]
    exact (List.Perm.flatMap_right groupIds
      (List.perm_insertionSort groupGE _)).trans (ids_build (sizeOf rs) rs (Nat.le_refl _) p d o)

/-- C9: promotion neither drops nor duplicates comments — for every raw
forest, parent author and depth, the multiset of ids appearing anywhere in
the output with `flattenSameAuthorThreads` true equals the multiset with it
false. -/
theorem claim_C9 (rs : List ReplyNode) (p : Option String) (d : Nat) :
    (idsList (processReplies (some rs) p d ⟨some true⟩)).Perm
      (idsList (processReplies (some rs) p d ⟨some false⟩)) :=
  (ids_processReplies rs p d ⟨some true⟩).trans
    (ids_processReplies rs p d ⟨some false⟩).symm

/-- Dropping a literal off its own append succeeds and leaves the rest. -/
theorem dropLit_self_append (p rest : List Char) : dropLit p (p ++ rest) = some rest := by
  induction p with
  | nil => rfl
  | cons c ps ih => simp [dropLit, ih]

/-- Soundness of `dropLit`: success decomposes the input. -/
theorem dropLit_eq_some {p cs rest : List Char} (h : dropLit p cs = some rest) :
    cs = p ++ rest := by
  induction p generalizing cs with
  | nil =>
    simp only [dropLit, Option.some_inj] at h
    simp [h]
  | cons c ps ih =>
    cases cs with
    | nil => simp [dropLit] at h
    | cons c0 cs0 =>
      simp only [dropLit] at h
      by_cases hc : c0 = c
      · subst hc
        rw [if_pos rfl] at h
        simp [ih h]
      · rw [if_neg hc] at h
        exact absurd h (by simp)

/-- A run of characters avoiding `bad` is taken whole. -/
theorem takeNon_clean (bad xs : List Char) (h : ∀ c ∈ xs, c ∉ bad) :
    takeNon bad xs = (xs, []) := by
  induction xs with
  | nil => rfl
  | cons c cs ih =>
    rw [takeNon, if_neg (h c (List.mem_cons_self c cs))]
    simp [ih fun c' hc' => h c' (List.mem_cons_of_mem c hc')]

/-- A clean run followed by a bad character splits exactly there. -/
theorem takeNon_clean_append (bad xs : List Char) (b : Char) (ys : List Char)
    (h : ∀ c ∈ xs, c ∉ bad) (hb : b ∈ bad) :
    takeNon bad (xs ++ b :: ys) = (xs, b :: ys) := by
  induction xs with
  | nil => rw [List.nil_append, takeNon, if_pos hb]
  | cons c cs ih =>
    rw [List.cons_append, takeNon, if_neg (h c (List.mem_cons_self c cs))]
    simp [ih fun c' hc' => h c' (List.mem_cons_of_mem c hc')]

/-- `takeNon` splits its input: run plus remainder reassemble it. -/
theorem takeNon_split (bad cs : List Char) :
    (takeNon bad cs).1 ++ (takeNon bad cs).2 = cs := by
  induction cs with
  | nil => rfl
  | cons c cs ih =>
    rw [takeNon]
    by_cases hc : c ∈ bad
    · simp [hc]
    · simp [hc, ih]

/-- Every character of the run avoids `bad`. -/
theorem takeNon_fst_clean (bad cs : List Char) : ∀ c ∈ (takeNon bad cs).1, c ∉ bad := by
  induction cs with
  | nil => intro c hc; simp [takeNon] at hc
  | cons c0 cs ih =>
    intro c hc
    rw [takeNon] at hc
    by_cases h0 : c0 ∈ bad
    · simp [h0] at hc
    · simp [h0] at hc
      rcases hc with rfl | hc
      · exact h0
      · exact ih c hc

/-- `dropOptS` takes a present `'s'`. -/
theorem dropOptS_s (r : List Char) : dropOptS ('s' :: r) = r := by
  rw [dropOptS, if_pos rfl]

/-- `dropOptS` leaves any other head alone. -/
theorem dropOptS_ne {c : Char} (r : List Char) (h : ¬ c = 's') :
    dropOptS (c :: r) = c :: r := by
  rw [dropOptS, if_neg h]

/-- Either `dropOptS` leaves the input unchanged, or the input was the result
with an `'s'` in front. -/
theorem dropOptS_cases (cs : List Char) : dropOptS cs = cs ∨ cs = 's' :: dropOptS cs := by
  cases cs with
  | nil => exact Or.inl rfl
  | cons c r =>
    by_cases hc : c = 's'
    · subst hc
      exact Or.inr (by rw [dropOptS_s])
    · exact Or.inl (dropOptS_ne r hc)

/-- The tail after the scheme starts with `':'`, so `dropOptS` is inert on it. -/
theorem dropOptS_colon_append (X : List Char) :
    dropOptS ("://bsky.app/profile/".toList ++ X) = "://bsky.app/profile/".toList ++ X := by
  rw [show ("://bsky.app/profile/".toList ++ X) = ':' :: ("//bsky.app/profile/".toList ++ X)
    from rfl]
  exact dropOptS_ne _ (by decide)

/-- The URL regex matches at position 0 of a well-formed `http` URL, capturing
the identifier and rkey segments. -/
theorem bskyMatchAt_http (ident rk : List Char)
    (h1 : ident ≠ []) (h2 : ∀ c ∈ ident, ¬ c = '/')
    (h3 : rk ≠ []) (h4 : ∀ c ∈ rk, ¬ (c = '/' ∨ c = '?' ∨ c = '#')) :
    bskyMatchAt ("http".toList ++ ("://bsky.app/profile/".toList
      ++ (ident ++ ("/post/".toList ++ rk)))) = some (ident, rk) := by
  have hid : ∀ c ∈ ident, c ∉ (['/'] : List Char) := fun c hc => by simpa using h2 c hc
  have hrk : ∀ c ∈ rk, c ∉ (['/', '?', '#'] : List Char) := fun c hc => by simpa using h4 c hc
  rw [show (ident ++ ("/post/".toList ++ rk)) = ident ++ ('/' :: ("post/".toList ++ rk))
    from rfl]
  simp only [bskyMatchAt, dropLit_self_append, dropOptS_colon_append,
    takeNon_clean_append ['/'] ident '/' ("post/".toList ++ rk) hid (by decide)]
  rw [show ('/' :: ("post/".toList ++ rk)) = "/post/".toList ++ rk from rfl]
  simp only [dropLit_self_append, takeNon_clean _ rk hrk, if_neg h1, if_neg h3]

/-- The URL regex matches at position 0 of a well-formed `https` URL. -/
theorem bskyMatchAt_https (ident rk : List Char)
    (h1 : ident ≠ []) (h2 : ∀ c ∈ ident, ¬ c = '/')
    (h3 : rk ≠ []) (h4 : ∀ c ∈ rk, ¬ (c = '/' ∨ c = '?' ∨ c = '#')) :
    bskyMatchAt ("https".toList ++ ("://bsky.app/profile/".toList
      ++ (ident ++ ("/post/".toList ++ rk)))) = some (ident, rk) := by
  have hid : ∀ c ∈ ident, c ∉ (['/'] : List Char) := fun c hc => by simpa using h2 c hc
  have hrk : ∀ c ∈ rk, c ∉ (['/', '?', '#'] : List Char) := fun c hc => by simpa using h4 c hc
  rw [show ("https".toList ++ ("://bsky.app/profile/".toList
      ++ (ident ++ ("/post/".toList ++ rk))))
    = "http".toList ++ ('s' :: ("://bsky.app/profile/".toList
      ++ (ident ++ ("/post/".toList ++ rk)))) from rfl]
  rw [show (ident ++ ("/post/".toList ++ rk)) = ident ++ ('/' :: ("post/".toList ++ rk))
    from rfl]
  simp only [bskyMatchAt, dropLit_self_append, dropOptS_s, dropOptS_colon_append,
    takeNon_clean_append ['/'] ident '/' ("post/".toList ++ rk) hid (by decide)]
  rw [show ('/' :: ("post/".toList ++ rk)) = "/post/".toList ++ rk from rfl]
  simp only [dropLit_self_append, takeNon_clean _ rk hrk, if_neg h1, if_neg h3]

/-- Soundness of `bskyMatchAt`: a successful match decomposes the input into
the literal URL pattern with the captured groups and a residual tail. -/
theorem bskyMatchAt_eq_some {cs ident rk : List Char}
    (h : bskyMatchAt cs = some (ident, rk)) :
    ∃ schTail rest, (schTail = [] ∨ schTail = ['s'])
      ∧ cs = "http".toList ++ (schTail ++ ("://bsky.app/profile/".toList
          ++ (ident ++ ("/post/".toList ++ (rk ++ rest)))))
      ∧ ident ≠ [] ∧ (∀ c ∈ ident, ¬ c = '/')
      ∧ rk ≠ [] ∧ (∀ c ∈ rk, ¬ (c = '/' ∨ c = '?' ∨ c = '#')) := by
  rw [bskyMatchAt] at h
  cases hd1 : dropLit "http".toList cs with
  | none => rw [hd1] at h; simp at h
  | some cs1 =>
    rw [hd1] at h
    simp only at h
    cases hd2 : dropLit "://bsky.app/profile/".toList (dropOptS cs1) with
    | none => rw [hd2] at h; simp at h
    | some cs3 =>
      rw [hd2] at h
      simp only at h
      by_cases hi : (takeNon ['/'] cs3).1 = []
      · rw [if_pos hi] at h; simp at h
      · rw [if_neg hi] at h
        cases hd3 : dropLit "/post/".toList (takeNon ['/'] cs3).2 with
        | none => rw [hd3] at h; simp at h
        | some cs4 =>
          rw [hd3] at h
          simp only at h
          by_cases hr : (takeNon ['/', '?', '#'] cs4).1 = []
          · rw [if_pos hr] at h; simp at h
          · rw [if_neg hr] at h
            simp only [Option.some_inj, Prod.mk.injEq] at h
            obtain ⟨hie, hre⟩ := h
            have hclean_i : ∀ c ∈ ident, ¬ c = '/' := by
              intro c hc
              have := takeNon_fst_clean ['/'] cs3 c (hie ▸ hc)
              simpa using this
            have hclean_r : ∀ c ∈ rk, ¬ (c = '/' ∨ c = '?' ∨ c = '#') := by
              intro c hc
              have := takeNon_fst_clean ['/', '?', '#'] cs4 c (hre ▸ hc)
              simpa using this
            have hcs : cs = "http".toList ++ cs1 := dropLit_eq_some hd1
            have hcs2 : dropOptS cs1 = "://bsky.app/profile/".toList ++ cs3 :=
              dropLit_eq_some hd2
            have hcs3 : cs3 = ident ++ (takeNon ['/'] cs3).2 := by
              rw [← hie]; exact (takeNon_split ['/'] cs3).symm
            have hcs4 : (takeNon ['/'] cs3).2 = "/post/".toList ++ cs4 :=
              dropLit_eq_some hd3
            have hcs5 : cs4 = rk ++ (takeNon ['/', '?', '#'] cs4).2 := by
              rw [← hre]; exact (takeNon_split ['/', '?', '#'] cs4).symm
            obtain ⟨T2, hT2⟩ : ∃ t, (takeNon ['/', '?', '#'] cs4).2 = t := ⟨_, rfl⟩
            rw [hT2] at hcs5
            rcases dropOptS_cases cs1 with hopt | hopt
            · refine ⟨[], T2, Or.inl rfl, ?_,
                hie ▸ hi, hclean_i, hre ▸ hr, hclean_r⟩
              rw [hcs, ← hopt, hcs2, hcs3, hcs4, hcs5]
              simp [List.append_assoc]
            · refine ⟨['s'], T2, Or.inr rfl, ?_,
                hie ▸ hi, hclean_i, hre ▸ hr, hclean_r⟩
              rw [hcs, hopt, hcs2, hcs3, hcs4, hcs5]
              simp [List.append_assoc]

/-- A match at position 0 makes the scan succeed with the same captures. -/
theorem bskyScan_of_matchAt {cs : List Char} {r : List Char × List Char}
    (h : bskyMatchAt cs = some r) : bskyScan cs = some r := by
  cases cs with
  | nil => rw [bskyScan]; exact h
  | cons c rest => rw [bskyScan, h]

/-- Soundness of the scan: success means a match at some split position. -/
theorem bskyScan_eq_some {cs : List Char} {r : List Char × List Char}
    (h : bskyScan cs = some r) :
    ∃ pre tail, cs = pre ++ tail ∧ bskyMatchAt tail = some r := by
  induction cs with
  | nil =>
    rw [bskyScan] at h
    exact ⟨[], [], rfl, h⟩
  | cons c rest ih =>
    rw [bskyScan] at h
    cases hm : bskyMatchAt (c :: rest) with
    | some r0 =>
      rw [hm] at h
      simp only [Option.some_inj] at h
      exact ⟨[], c :: rest, rfl, h ▸ hm⟩
    | none =>
      rw [hm] at h
      simp only at h
      obtain ⟨pre, tail, heq, hm2⟩ := ih h
      exact ⟨c :: pre, tail, by rw [heq, List.cons_append], hm2⟩

/-- The AT-URI regex matches at position 0 of a well-formed feed-post URI,
capturing the DID and rkey segments. -/
theorem atMatchAt_exact (did rk : List Char)
    (h1 : did ≠ []) (h2 : ∀ c ∈ did, ¬ c = '/')
    (h3 : rk ≠ []) (h4 : ∀ c ∈ rk, ¬ (c = '/' ∨ c = '?' ∨ c = '#')) :
    atMatchAt ("at://".toList ++ (did ++ ("/app.bsky.feed.post/".toList ++ rk)))
      = some (did, rk) := by
  have hdid : ∀ c ∈ did, c ∉ (['/'] : List Char) := fun c hc => by simpa using h2 c hc
  have hrk : ∀ c ∈ rk, c ∉ (['/', '?', '#'] : List Char) := fun c hc => by simpa using h4 c hc
  rw [show (did ++ ("/app.bsky.feed.post/".toList ++ rk))
    = did ++ ('/' :: ("app.bsky.feed.post/".toList ++ rk)) from rfl]
  simp only [atMatchAt, dropLit_self_append,
    takeNon_clean_append ['/'] did '/' ("app.bsky.feed.post/".toList ++ rk) hdid (by decide)]
  rw [show ('/' :: ("app.bsky.feed.post/".toList ++ rk))
    = "/app.bsky.feed.post/".toList ++ rk from rfl]
  simp only [dropLit_self_append, takeNon_clean _ rk hrk, if_neg h1, if_neg h3]

/-- Soundness of `atMatchAt`: a successful match decomposes the input. -/
theorem atMatchAt_eq_some {cs did rk : List Char}
    (h : atMatchAt cs = some (did, rk)) :
    ∃ rest, cs = "at://".toList ++ (did ++ ("/app.bsky.feed.post/".toList ++ (rk ++ rest)))
      ∧ did ≠ [] ∧ (∀ c ∈ did, ¬ c = '/')
      ∧ rk ≠ [] ∧ (∀ c ∈ rk, ¬ (c = '/' ∨ c = '?' ∨ c = '#')) := by
  rw [atMatchAt] at h
  cases hd1 : dropLit "at://".toList cs with
  | none => rw [hd1] at h; simp at h
  | some cs1 =>
    rw [hd1] at h
    simp only at h
    by_cases hi : (takeNon ['/'] cs1).1 = []
    · rw [if_pos hi] at h; simp at h
    · rw [if_neg hi] at h
      cases hd2 : dropLit "/app.bsky.feed.post/".toList (takeNon ['/'] cs1).2 with
      | none => rw [hd2] at h; simp at h
      | some cs2 =>
        rw [hd2] at h
        simp only at h
        by_cases hr : (takeNon ['/', '?', '#'] cs2).1 = []
        · rw [if_pos hr] at h; simp at h
        · rw [if_neg hr] at h
          simp only [Option.some_inj, Prod.mk.injEq] at h
          obtain ⟨hie, hre⟩ := h
          have hclean_i : ∀ c ∈ did, ¬ c = '/' := by
            intro c hc
            have := takeNon_fst_clean ['/'] cs1 c (hie ▸ hc)
            simpa using this
          have hclean_r : ∀ c ∈ rk, ¬ (c = '/' ∨ c = '?' ∨ c = '#') := by
            intro c hc
            have := takeNon_fst_clean ['/', '?', '#'] cs2 c (hre ▸ hc)
            simpa using this
          have hcs : cs = "at://".toList ++ cs1 := dropLit_eq_some hd1
          have hcs1 : cs1 = did ++ (takeNon ['/'] cs1).2 := by
            rw [← hie]; exact (takeNon_split ['/'] cs1).symm
          have hcs2 : (takeNon ['/'] cs1).2 = "/app.bsky.feed.post/".toList ++ cs2 :=
            dropLit_eq_some hd2
          have hcs3 : cs2 = rk ++ (takeNon ['/', '?', '#'] cs2).2 := by
            rw [← hre]; exact (takeNon_split ['/', '?', '#'] cs2).symm
          obtain ⟨T2, hT2⟩ : ∃ t, (takeNon ['/', '?', '#'] cs2).2 = t := ⟨_, rfl⟩
          rw [hT2] at hcs3
          refine ⟨T2, ?_, hie ▸ hi, hclean_i, hre ▸ hr, hclean_r⟩
          rw [hcs, hcs1, hcs2, hcs3]

/-- A match at position 0 makes the AT-URI scan succeed with the same
captures. -/
theorem atScan_of_matchAt {cs : List Char} {r : List Char × List Char}
    (h : atMatchAt cs = some r) : atScan cs = some r := by
  cases cs with
  | nil => rw [atScan]; exact h
  | cons c rest => rw [atScan, h]

/-- Soundness of the AT-URI scan: success means a match at some split. -/
theorem atScan_eq_some {cs : List Char} {r : List Char × List Char}
    (h : atScan cs = some r) :
    ∃ pre tail, cs = pre ++ tail ∧ atMatchAt tail = some r := by
  induction cs with
  | nil =>
    rw [atScan] at h
    exact ⟨[], [], rfl, h⟩
  | cons c rest ih =>
    rw [atScan] at h
    cases hm : atMatchAt (c :: rest) with
    | some r0 =>
      rw [hm] at h
      simp only [Option.some_inj] at h
      exact ⟨[], c :: rest, rfl, h ▸ hm⟩
    | none =>
      rw [hm] at h
      simp only at h
      obtain ⟨pre, tail, heq, hm2⟩ := ih h
      exact ⟨c :: pre, tail, by rw [heq, List.cons_append], hm2⟩

/-- `parseBlueskyUrl` on a URL of the exact shape `uriToUrl` produces:
the identifier and rkey are recovered, provided the identifier is non-empty
and slash-free and the rkey is non-empty and `/ ? #`-free. -/
theorem parseBlueskyUrl_build (identifier : String) (rk : List Char)
    (hi1 : identifier.toList ≠ []) (hi2 : ∀ c ∈ identifier.toList, ¬ c = '/')
    (hr1 : rk ≠ []) (hr2 : ∀ c ∈ rk, ¬ (c = '/' ∨ c = '?' ∨ c = '#')) :
    parseBlueskyUrl ("https://bsky.app/profile/" ++ identifier ++ "/post/" ++ (⟨rk⟩ : String))
      = some ⟨identifier, ⟨rk⟩⟩ := by
  have htl : ("https://bsky.app/profile/" ++ identifier ++ "/post/" ++ (⟨rk⟩ : String)).toList
      = "https".toList ++ ("://bsky.app/profile/".toList
        ++ (identifier.toList ++ ("/post/".toList ++ rk))) := by
    rw [show ("https://bsky.app/profile/" : String) = "https" ++ "://bsky.app/profile/"
      from rfl]
    simp [String.toList, List.append_assoc]
  rw [parseBlueskyUrl, htl,
    bskyScan_of_matchAt (bskyMatchAt_https identifier.toList rk hi1 hi2 hr1 hr2)]
  rfl

/-- C4: `parseBlueskyUrl` is total (in this embedding it is a total function
into an option type — it throws nothing), returns exactly the two captured
segments on every locator of the documented pattern (the spec's abstract
`scheme`/`host` placeholders instantiated with the code's concrete
`http|https` and `bsky.app`), and returns `none` on every string that does
not contain the pattern. -/
theorem claim_C4 :
    (∀ (secure : Bool) (ident rk : String),
        ident.toList ≠ [] → (∀ c ∈ ident.toList, ¬ c = '/') →
        rk.toList ≠ [] → (∀ c ∈ rk.toList, ¬ (c = '/' ∨ c = '?' ∨ c = '#')) →
        parseBlueskyUrl ((cond secure "https" "http") ++ "://bsky.app/profile/"
            ++ ident ++ "/post/" ++ rk) = some ⟨ident, rk⟩)
    ∧ (∀ s : String, ¬ containsBskyPattern s → parseBlueskyUrl s = none) := by
  constructor
  · intro secure ident rk h1 h2 h3 h4
    cases secure with
    | false =>
      have htl : (("http" : String) ++ "://bsky.app/profile/" ++ ident ++ "/post/" ++ rk).toList
          = "http".toList ++ ("://bsky.app/profile/".toList
            ++ (ident.toList ++ ("/post/".toList ++ rk.toList))) := by
        simp [String.toList, List.append_assoc]
      rw [show (cond false "https" "http" : String) = "http" from rfl, parseBlueskyUrl, htl,
        bskyScan_of_matchAt (bskyMatchAt_http ident.toList rk.toList h1 h2 h3 h4)]
      rfl
    | true =>
      have htl : (("https" : String) ++ "://bsky.app/profile/" ++ ident ++ "/post/" ++ rk).toList
          = "https".toList ++ ("://bsky.app/profile/".toList
            ++ (ident.toList ++ ("/post/".toList ++ rk.toList))) := by
        simp [String.toList, List.append_assoc]
      rw [show (cond true "https" "http" : String) = "https" from rfl, parseBlueskyUrl, htl,
        bskyScan_of_matchAt (bskyMatchAt_https ident.toList rk.toList h1 h2 h3 h4)]
      rfl
  · intro s hn
    cases hp : parseBlueskyUrl s with
    | none => rfl
    | some pr =>
      exfalso
      apply hn
      rw [parseBlueskyUrl] at hp
      cases hsc : bskyScan s.toList with
      | none => rw [hsc] at hp; simp at hp
      | some r =>
        obtain ⟨il, rl⟩ := r
        obtain ⟨pre, tail, heq, hm⟩ := bskyScan_eq_some hsc
        obtain ⟨schTail, rest, hsch, htail, hi1, hi2, hr1, hr2⟩ := bskyMatchAt_eq_some hm
        refine ⟨pre, "http".toList ++ schTail, il, rl, rest, ?_, hi1, hi2, hr1, hr2, ?_⟩
        · rcases hsch with hh | hh
          · subst hh; left; simp
          · subst hh; right; rfl
        · rw [heq, htail]
          simp [List.append_assoc]

/-- Witness for C4: a concrete clean `https` locator parses to its segments,
and a concrete patternless string parses to `none`. -/
theorem claim_C4_witness :
    parseBlueskyUrl ((cond true "https" "http") ++ "://bsky.app/profile/"
        ++ "alice.test" ++ "/post/" ++ "3kabc") = some ⟨"alice.test", "3kabc"⟩
    ∧ parseBlueskyUrl "" = none :=
  ⟨claim_C4.1 true "alice.test" "3kabc" (by decide) (by decide) (by decide) (by decide),
    claim_C4.2 "" (by
      rintro ⟨pre, sch, ident, rk, suf, hsch, hi1, hi2, hr1, hr2, heq⟩
      rw [show ("" : String).toList = [] from rfl] at heq
      have h0 := heq.symm
      simp only [List.append_eq_nil] at h0
      tauto)⟩

/-- C5 (amended): `uriToUrl` is total; on every URI of the exact feed-post
shape it yields the web URL with the DID as identifier when the handle is
absent **or empty** (the source computes `handle || did`, and `""` is falsy),
and with the handle as identifier when a non-empty handle is supplied; on
every string not containing the feed-post pattern it yields `""`. -/
theorem claim_C5 :
    (∀ did rk : String,
        did.toList ≠ [] → (∀ c ∈ did.toList, ¬ c = '/') →
        rk.toList ≠ [] → (∀ c ∈ rk.toList, ¬ (c = '/' ∨ c = '?' ∨ c = '#')) →
        uriToUrl ("at://" ++ did ++ "/app.bsky.feed.post/" ++ rk) none
            = "https://bsky.app/profile/" ++ did ++ "/post/" ++ rk
          ∧ (∀ h : String, ¬ h = "" →
              uriToUrl ("at://" ++ did ++ "/app.bsky.feed.post/" ++ rk) (some h)
                = "https://bsky.app/profile/" ++ h ++ "/post/" ++ rk)
          ∧ uriToUrl ("at://" ++ did ++ "/app.bsky.feed.post/" ++ rk) (some "")
              = "https://bsky.app/profile/" ++ did ++ "/post/" ++ rk)
    ∧ (∀ (s : String) (h : Option String), ¬ containsAtPattern s → uriToUrl s h = "") := by
  constructor
  · intro did rk h1 h2 h3 h4
    have htl : (("at://" : String) ++ did ++ "/app.bsky.feed.post/" ++ rk).toList
        = "at://".toList ++ (did.toList ++ ("/app.bsky.feed.post/".toList ++ rk.toList)) := by
      simp [String.toList, List.append_assoc]
    have hscan : atScan (("at://" ++ did ++ "/app.bsky.feed.post/" ++ rk).toList)
        = some (did.toList, rk.toList) := by
      rw [htl]
      exact atScan_of_matchAt (atMatchAt_exact did.toList rk.toList h1 h2 h3 h4)
    refine ⟨?_, ?_, ?_⟩
    · rw [uriToUrl, hscan]
      rfl
    · intro h hne
      rw [uriToUrl, hscan]
      simp only [if_neg hne]
      rfl
    · rw [uriToUrl, hscan]
      simp only [if_pos rfl]
      rfl
  · intro s h hn
    cases hsc : atScan s.toList with
    | none => rw [uriToUrl, hsc]
    | some r =>
      exfalso
      apply hn
      obtain ⟨dl, rl⟩ := r
      obtain ⟨pre, tail, heq, hm⟩ := atScan_eq_some hsc
      obtain ⟨rest, htail, hd1, hd2, hr1, hr2⟩ := atMatchAt_eq_some hm
      refine ⟨pre, dl, rl, rest, hd1, hd2, hr1, hr2, ?_⟩
      rw [heq, htail]
      simp [List.append_assoc]

/-- Witness for C5: a concrete feed-post URI converts with and without a
handle, and a concrete patternless string converts to `""`. -/
theorem claim_C5_witness :
    uriToUrl ("at://" ++ "did:plc:abc" ++ "/app.bsky.feed.post/" ++ "3kabc") none
        = "https://bsky.app/profile/" ++ "did:plc:abc" ++ "/post/" ++ "3kabc"
    ∧ uriToUrl "no uri here" none = "" := by
  refine ⟨(claim_C5.1 "did:plc:abc" "3kabc" (by decide) (by decide) (by decide)
    (by decide)).1, claim_C5.2 "no uri here" none ?_⟩
  rintro ⟨pre, dl, rl, suf, hd1, hd2, hr1, hr2, heq⟩
  have hlen := congrArg List.length heq
  have hd : 1 ≤ dl.length := List.length_pos.mpr hd1
  have hr : 1 ≤ rl.length := List.length_pos.mpr hr1
  rw [show ("no uri here" : String).toList.length = 11 from rfl] at hlen
  simp only [List.length_append] at hlen
  rw [show ("at://" : String).toList.length = 5 from rfl,
    show ("/app.bsky.feed.post/" : String).toList.length = 20 from rfl] at hlen
  omega

/-- C6 (amended): round-trip preserves the rkey for every URI matching the
feed-post pattern and every handle that contains no `/` — parsing the web
URL built by `uriToUrl` succeeds and recovers the rkey segment of the URI.
(The restriction on the handle is forced by `claim_C6_counterexample`: a
handle containing `/` breaks the produced URL's path structure.) -/
theorem claim_C6 (uri : String) (h : Option String) (did rk : List Char)
    (hscan : atScan uri.toList = some (did, rk))
    (hh : ∀ s ∈ h, ('/' : Char) ∉ s.toList) :
    ∃ ident, parseBlueskyUrl (uriToUrl uri h) = some ⟨ident, ⟨rk⟩⟩ := by
  obtain ⟨pre, tail, hequri, hm⟩ := atScan_eq_some hscan
  obtain ⟨rest, htail, hd1, hd2, hr1, hr2⟩ := atMatchAt_eq_some hm
  have hdid1 : ((⟨did⟩ : String)).toList ≠ [] := hd1
  have hdid2 : ∀ c ∈ ((⟨did⟩ : String)).toList, ¬ c = '/' := hd2
  cases h with
  | none =>
    rw [uriToUrl, hscan]
    exact ⟨⟨did⟩, parseBlueskyUrl_build ⟨did⟩ rk hdid1 hdid2 hr1 hr2⟩
  | some s =>
    by_cases hs : s = ""
    · rw [uriToUrl, hscan]
      simp only [hs, if_pos rfl]
      exact ⟨⟨did⟩, parseBlueskyUrl_build ⟨did⟩ rk hdid1 hdid2 hr1 hr2⟩
    · rw [uriToUrl, hscan]
      simp only [if_neg hs]
      have hs1 : s.toList ≠ [] := by
        intro hc
        apply hs
        cases s with
        | mk d =>
          simp only [String.toList] at hc
          simp [hc]
      have hs2 : ∀ c ∈ s.toList, ¬ c = '/' := by
        intro c hc he
        exact hh s rfl (he ▸ hc)
      exact ⟨s, parseBlueskyUrl_build s rk hs1 hs2 hr1 hr2⟩

/-- Witness for C6 at a concrete URI and slash-free handle: the round trip
recovers rkey `xyz`. -/
theorem claim_C6_witness :
    ∃ ident, parseBlueskyUrl
      (uriToUrl "at://did:plc:abc/app.bsky.feed.post/xyz" (some "alice.test"))
      = some ⟨ident, "xyz"⟩ :=
  claim_C6 "at://did:plc:abc/app.bsky.feed.post/xyz" (some "alice.test")
    "did:plc:abc".toList "xyz".toList (by decide) (by decide)

end BlueskyComments
